import Mathlib

/-!
Verification of the kords repository's audio-engine family and pitch utility.

The repository carries several iterations of the same audio engine:
the current `src/helpers/AudioEngine.ts` (one-shot oscillator engine, namespace
`EN` below), the voice-table engine of `src/unnamed/part_010` (namespace `E10`)
and the soundfont-capable voice-table engine of `src/unnamed/part_012`
(namespace `E12`).  The pitch utility `src/helpers/AudioHelper.ts` is embedded
in namespace `AH`.  JavaScript numbers are modelled as `Rat` (exact rational
arithmetic; the only places the code relies on floating point are frequency
computations, which no claim inspects — we keep the integer semitone instead).
`setTimeout` timers are modelled as an explicit list of pending timers with
their callback payloads, and `Map` objects as insertion-ordered association
lists, matching JS `Map` iteration order.
-/

namespace Kords

/-! ## JS `Map` as an insertion-ordered association list

`mset` is `Map.set` (replace in place, else append), `mfind` is `Map.get`,
`mdel` is `Map.delete`. -/

def mfind {α : Type} (m : List (String × α)) (k : String) : Option α :=
  (m.find? (fun p => decide (p.1 = k))).map (fun p => p.2)

def mset {α : Type} (m : List (String × α)) (k : String) (v : α) :
    List (String × α) :=
  if m.any (fun p => decide (p.1 = k)) then
    m.map (fun p => if p.1 = k then (k, v) else p)
  else
    m ++ [(k, v)]

def mdel {α : Type} (m : List (String × α)) (k : String) : List (String × α) :=
  m.filter (fun p => !decide (p.1 = k))

/-- JS `Math.max` on (exact) numbers, written with a plain decidable test so
that it evaluates inside the kernel. -/
def rmax (a b : Rat) : Rat := if a ≤ b then b else a

/-- JS `Math.min` on array indices. -/
def nmin (a b : Nat) : Nat := if a ≤ b then a else b

/-! ## Pitch utility: `src/helpers/AudioHelper.ts` (claim C2)

`AudioHelper.voiceChord` calls `Note.midi` of `@tonaljs/tonal` on tokens of the
form `pc ++ toString octave`.  Tonal parses letter (`a`-`g`, either case), an
accidental run (all `#`, all `b` or all `x`), and the octave, and returns
`SEMI[letter] + alt + 12 * (oct + 1)` as the midi number only when that value
lies within 0..127 — out-of-range or unparseable tokens give `null`.  Since the
octave is the integer the helper appends, we parse the pitch class on its own
and take the octave as an integer argument. -/

namespace AH

/-- Semitone of a note letter (tonal's SEMI table, C major scale steps). -/
def letterSemi (c : Char) : Option Int :=
  if c = 'C' ∨ c = 'c' then some 0
  else if c = 'D' ∨ c = 'd' then some 2
  else if c = 'E' ∨ c = 'e' then some 4
  else if c = 'F' ∨ c = 'f' then some 5
  else if c = 'G' ∨ c = 'g' then some 7
  else if c = 'A' ∨ c = 'a' then some 9
  else if c = 'B' ∨ c = 'b' then some 11
  else none

/-- Alteration of an accidental run: `#`×k = +k, `b`×k = -k, `x`×k = +2k
(tonal's tokenizer only matches an unmixed run; anything else fails). -/
def accVal : List Char → Option Int
  | [] => some 0
  | c :: rest =>
    if c = '#' then
      if rest.all (fun d => d = '#') then some ((rest.length : Int) + 1) else none
    else if c = 'b' then
      if rest.all (fun d => d = 'b') then some (-((rest.length : Int) + 1)) else none
    else if c = 'x' then
      if rest.all (fun d => d = 'x') then some (2 * ((rest.length : Int) + 1)) else none
    else none

/-- Parse a pitch-class token into its semitone offset (letter + alteration);
`none` for tokens tonal rejects. -/
def parsePc (pc : String) : Option Int :=
  match pc.data with
  | [] => none
  | c :: rest =>
    match letterSemi c, accVal rest with
    | some s, some a => some (s + a)
    | _, _ => none

/-- Tonal `Note.midi` for pitch class value `sv` at octave `oct`:
`sv + 12 * (oct + 1)` when within the MIDI range 0..127, else `none`. -/
def noteMidi (sv : Int) (oct : Int) : Option Int :=
  let h := sv + 12 * (oct + 1)
  if 0 ≤ h ∧ h ≤ 127 then some h else none

/-- `midi <= lastMidi` of the source loop; `lastMidi` starts as `-Infinity`,
modelled by `none` (comparison false). -/
def leLast (m : Int) : Option Int → Bool
  | none => false
  | some l => decide (m ≤ l)

/-- The `while` loop of `voiceChord`: raise the octave until the midi value
clears `last`.  Each iteration raises the midi by 12, midi values are at most
127 and `last` is a previously returned midi (hence ≤ 127), so the source loop
runs at most 11 times; fuel 12 is never exhausted in `voiceChord`'s use.
Returns the loop's final midi value and final octave. -/
def bumpOct (sv : Int) (last : Option Int) : Nat → Int → Option Int × Int
  | 0, oct => (none, oct)
  | fuel + 1, oct =>
    match noteMidi sv oct with
    | none => (none, oct)
    | some m =>
      if leLast m last then bumpOct sv last fuel (oct + 1) else (some m, oct)

/-- The loop of `AudioHelper.voiceChord`, recursing over the input pitch
classes with the running octave and last emitted midi (`none` = -Infinity).
Unparseable tokens and tokens whose midi lookup fails at the attempted octave
are skipped (`continue`); the raised octave persists across iterations. -/
def voiceChordGo : List String → Int → Option Int → List String
  | [], _, _ => []
  | pc :: rest, oct, last =>
    match parsePc pc with
    | none => voiceChordGo rest oct last
    | some sv =>
      match bumpOct sv last 12 oct with
      | (none, oct2) => voiceChordGo rest oct2 last
      | (some m, oct2) => (pc ++ toString oct2) :: voiceChordGo rest oct2 (some m)

/-- `AudioHelper.voiceChord(notes, baseOctave)`. -/
def voiceChord (notes : List String) (baseOctave : Int := 3) : List String :=
  voiceChordGo notes baseOctave none

/-- Instrumented variant of the `voiceChord` recursion that records, for each
emitted note, the input pitch class, the assigned octave and the midi value. -/
def voiceChordPairs : List String → Int → Option Int → List (String × Int × Int)
  | [], _, _ => []
  | pc :: rest, oct, last =>
    match parsePc pc with
    | none => voiceChordPairs rest oct last
    | some sv =>
      match bumpOct sv last 12 oct with
      | (none, oct2) => voiceChordPairs rest oct2 last
      | (some m, oct2) => (pc, oct2, m) :: voiceChordPairs rest oct2 (some m)

end AH

/-! ## Current engine: `src/helpers/AudioEngine.ts` (namespace `EN`)

One-shot oscillator engine: there is no voice table; every triggered sound is
an oscillator/gain pair whose stop is scheduled at creation.  Each trigger is
logged as a `SoundEvent`: `semi` is the semitone count of `noteToFreq` (the
source returns the frequency `440 * 2 ^ ((semi - 9) / 12)`, always positive,
so the `if (!freq)` guard in `playNote` fails exactly on the `none` case);
`argDuration` is the `durationSeconds` argument `playNote` received; `stopAt`
is the offset at which the oscillators are stopped (`max 0.05 d` for the plain
oscillator one-shot, `d + 0.02` for the pad and fm-piano one-shots).
`setTimeout` is a pending-timer list; the `tick` closure of `playSequence`
captures only the chord list (index, loop and playing flags are read from the
engine when it runs). -/

namespace EN

inductive SoundType where
  | sine
  | sawtooth
  | fmPiano
  | pad
  deriving DecidableEq

structure AudioChord where
  notes : List String
  durationBeats : Option Rat
  deriving DecidableEq

structure SoundEvent where
  semi : Int
  argDuration : Rat
  stopAt : Rat
  deriving DecidableEq

structure Timer where
  id : Nat
  delayMs : Rat
  chords : List AudioChord
  deriving DecidableEq

structure State where
  bpm : Rat
  sound : SoundType
  loop : Bool
  seqTimeout : Option Nat
  sequenceIndex : Nat
  isPlayingSequence : Bool
  activeSequenceLoop : Bool
  pending : List Timer
  nextTimerId : Nat
  events : List SoundEvent
  deriving DecidableEq

/-- `new AudioEngine()` with the constructor defaults (120 bpm, loop, sine). -/
def init : State :=
  { bpm := 120, sound := .sine, loop := true, seqTimeout := none,
    sequenceIndex := 0, isPlayingSequence := false, activeSequenceLoop := false,
    pending := [], nextTimerId := 0, events := [] }

/-- `setBpm`: `Math.max(1, Math.round(bpm))` (JS `Math.round` is
`floor(x + 1/2)`). -/
def setBpm (bpm : Rat) (s : State) : State :=
  { s with bpm := rmax 1 (((bpm + 1/2).floor : Int) : Rat) }

def setSound (sound : SoundType) (s : State) : State := { s with sound := sound }

def setLoop (loop : Bool) (s : State) : State := { s with loop := loop }

/-- One-or-more decimal digits, as in the regex `\d+`. -/
def parseDigits (l : List Char) : Option Nat :=
  if l.isEmpty then none
  else if l.all Char.isDigit then
    some (l.foldl (fun a c => 10 * a + (c.toNat - 48)) 0)
  else none

/-- The octave group `(-?\d+)$` of the `noteToFreq` regex. -/
def parseOct : List Char → Option Int
  | '-' :: rest => (parseDigits rest).map (fun n => -(n : Int))
  | l => (parseDigits l).map (fun n => (n : Int))

/-- The `NOTES` table of `noteToFreq`.  `E#` and `B#` are not keys, so the
lookup yields `undefined` and the note is rejected; any token whose name group
is not a key behaves the same. -/
def noteVal : List Char → Option Int
  | ['C'] => some 0
  | ['C', '#'] => some 1
  | ['D'] => some 2
  | ['D', '#'] => some 3
  | ['E'] => some 4
  | ['F'] => some 5
  | ['F', '#'] => some 6
  | ['G'] => some 7
  | ['G', '#'] => some 8
  | ['A'] => some 9
  | ['A', '#'] => some 10
  | ['B'] => some 11
  | _ => none

/-- `noteToFreq(note)` of the current engine: regex `^([A-G]#?)(-?\d+)$`,
`NOTES` lookup, `semitones = noteVal + (octave - 4) * 12`.  We keep the
semitone count; the returned frequency is `440 * 2 ^ ((semitones - 9) / 12)`,
which is never falsy, so callers only distinguish `none`. -/
def noteToFreq (note : String) : Option Int :=
  match note.data with
  | [] => none
  | c :: rest =>
    let split : List Char × List Char :=
      match rest with
      | '#' :: rest2 => ([c, '#'], rest2)
      | _ => ([c], rest)
    match noteVal split.1, parseOct split.2 with
    | some v, some oct => some (v + (oct - 4) * 12)
    | _, _ => none

/-- `playNote(note, durationSeconds = 1)` (the source default is 1 second).
`resumeIfNeeded` has no modelled effect.  An unparseable note returns before
any sound is made.  All three synth paths are one-shots. -/
def playNote (note : String) (durationSeconds : Rat) (s : State) : State :=
  match noteToFreq note with
  | none => s
  | some semi =>
    match s.sound with
    | .fmPiano =>
      { s with events := s.events ++ [⟨semi, durationSeconds, durationSeconds + 1/50⟩] }
    | .pad =>
      { s with events := s.events ++ [⟨semi, durationSeconds, durationSeconds + 1/50⟩] }
    | _ =>
      { s with events := s.events ++ [⟨semi, durationSeconds, rmax (1/20) durationSeconds⟩] }

/-- `playChord(chord)`: a missing `durationBeats` defaults to 1 beat (`?? 1`),
`msPerBeat = 60000 / Math.max(1, bpm)` and the per-note duration is clamped
below at 0.03 s; each note is passed to `playNote` in list order. -/
def playChord (chord : AudioChord) (s : State) : State :=
  let beats := chord.durationBeats.getD 1
  let msPerBeat : Rat := 60000 / rmax 1 s.bpm
  let seconds : Rat := rmax (3/100) (beats * msPerBeat / 1000)
  chord.notes.foldl (fun st n => playNote n seconds st) s

/-- `stopSequence()`: stop stepping and clear the armed timer.  No sound event
is touched: already-triggered one-shots play out to their scheduled stop. -/
def stopSequence (s : State) : State :=
  let s1 : State := { s with isPlayingSequence := false }
  match s1.seqTimeout with
  | none => s1
  | some tid =>
    { s1 with pending := s1.pending.filter (fun t => !decide (t.id = tid)),
              seqTimeout := none }

/-- Arm the next tick: `this.seqTimeout = window.setTimeout(tick, delay)`. -/
def armTick (chords : List AudioChord) (delay : Rat) (s : State) : State :=
  { s with seqTimeout := some s.nextTimerId,
           pending := s.pending ++ [⟨s.nextTimerId, delay, chords⟩],
           nextTimerId := s.nextTimerId + 1 }

/-- One run of the `tick` closure of `playSequence`: bail out if not playing,
stop past the end, else play the current chord, compute
`delay = max(20, beats * msPerBeat)`, advance the cursor (wrapping when the
active loop flag is set, stopping otherwise) and arm the next tick. -/
def tick (chords : List AudioChord) (s : State) : State :=
  if s.isPlayingSequence = false then s
  else
    match chords[s.sequenceIndex]? with
    | none => stopSequence s
    | some current =>
      let s1 := playChord current s
      let beats := current.durationBeats.getD 1
      let msPerBeat : Rat := 60000 / rmax 1 s1.bpm
      let delay : Rat := rmax 20 (beats * msPerBeat)
      let s2 : State := { s1 with sequenceIndex := s1.sequenceIndex + 1 }
      if s2.sequenceIndex ≥ chords.length then
        if s2.activeSequenceLoop then armTick chords delay { s2 with sequenceIndex := 0 }
        else stopSequence s2
      else armTick chords delay s2

/-- `playSequence(chords, startIndex = 0, loop = this.state.loop)`: an empty
chord list returns immediately, before any other effect; otherwise any running
sequence is cancelled, the start index is clamped into range
(`Math.max(0, Math.min(startIndex, length - 1))`; `startIndex` is a `Nat`
here, covering the lower clamp) and the first tick runs synchronously. -/
def playSequence (chords : List AudioChord) (startIndex : Nat) (loop : Bool)
    (s : State) : State :=
  if chords.isEmpty then s
  else
    let s1 := stopSequence s
    let s2 : State :=
      { s1 with isPlayingSequence := true,
                sequenceIndex := nmin startIndex (chords.length - 1),
                activeSequenceLoop := loop }
    tick chords s2

end EN

/-! ## Voice-table engine: `src/unnamed/part_010` (namespace `E10`)

Oscillator engine with a `Map`-backed voice table.  Every created
oscillator/gain pair is logged as a `Voice`; `stopAfter` is a stop scheduled
at creation (explicit `durationSec`), `stopped` records a later explicit stop
(`stopNote` / `stopAllNotes`).  A voice is *sounding* while it has neither.
The sequence machinery of part_010 is the same code as part_012's and the
claims cite the part_012 copy, so it is embedded there. -/

namespace E10

structure Voice where
  vid : Nat
  note : String
  midi : Int
  stopAfter : Option Rat
  stopped : Bool
  deriving DecidableEq

structure Chord where
  notes : List String
  durationBeats : Option Rat
  deriving DecidableEq

structure State where
  bpm : Rat
  activeVoices : List (String × Nat)
  voices : List Voice
  nextVid : Nat
  deriving DecidableEq

/-- `new AudioEngine()` with its defaults (120 bpm). -/
def init : State := { bpm := 120, activeVoices := [], voices := [], nextVid := 0 }

def beatsToSeconds (bpm beats : Rat) : Rat := 60 / bpm * beats

/-- The note-letter class `[A-G]` of the part_010 regex. -/
def isNoteLetter (c : Char) : Bool := decide ('A' ≤ c ∧ c ≤ 'G')

/-- `NOTES.indexOf(pitch)` of part_010: −1 when the matched name (e.g. `E#`,
`B#`) is not in the list. -/
def noteIndex : List Char → Int
  | ['C'] => 0
  | ['C', '#'] => 1
  | ['D'] => 2
  | ['D', '#'] => 3
  | ['E'] => 4
  | ['F'] => 5
  | ['F', '#'] => 6
  | ['G'] => 7
  | ['G', '#'] => 8
  | ['A'] => 9
  | ['A', '#'] => 10
  | ['B'] => 11
  | _ => -1

/-- `noteToFreq` of part_010 (identical in part_012): regex `^([A-G]#?)(\d)$`
with a single-digit octave, and `return 440` — not a rejection — when the
token does not match.  We return the midi number `semitone + (octave + 1) * 12`
(the frequency is `440 * 2 ^ ((midi - 69) / 12)`); the 440 fallback is midi 69
under the same formula. -/
def noteToFreq (note : String) : Int :=
  match note.data with
  | [c, d] =>
    if isNoteLetter c && d.isDigit then
      noteIndex [c] + (((d.toNat : Int) - 48) + 1) * 12
    else 69
  | [c, h, d] =>
    if isNoteLetter c && decide (h = '#') && d.isDigit then
      noteIndex [c, '#'] + (((d.toNat : Int) - 48) + 1) * 12
    else 69
  | _ => 69

/-- `stopNote(note)`: fade out and stop the voice bound to `note` (if any) and
drop its table entry.  The try/catch around the audio calls means this never
throws. -/
def stopNote (note : String) (s : State) : State :=
  match mfind s.activeVoices note with
  | none => s
  | some vid =>
    { s with
      voices := s.voices.map (fun v => if v.vid = vid then { v with stopped := true } else v),
      activeVoices := mdel s.activeVoices note }

/-- `playNote(note, durationSec?)` of part_010: first `this.stopNote(note)`,
then a fresh oscillator.  A positive duration schedules the stop at creation
and the voice is *not* tabled; otherwise the voice is held and tabled. -/
def playNote (note : String) (durationSec : Option Rat) (s : State) : State :=
  let s1 := stopNote note s
  match durationSec with
  | some d =>
    if 0 < d then
      { s1 with voices := s1.voices ++ [⟨s1.nextVid, note, noteToFreq note, some d, false⟩],
                nextVid := s1.nextVid + 1 }
    else
      { s1 with voices := s1.voices ++ [⟨s1.nextVid, note, noteToFreq note, none, false⟩],
                activeVoices := mset s1.activeVoices note s1.nextVid,
                nextVid := s1.nextVid + 1 }
  | none =>
    { s1 with voices := s1.voices ++ [⟨s1.nextVid, note, noteToFreq note, none, false⟩],
              activeVoices := mset s1.activeVoices note s1.nextVid,
              nextVid := s1.nextVid + 1 }

/-- The per-note body of `playChord`'s `forEach` in part_010: stop the
existing voice, start a new oscillator, schedule its stop when
`durationSec > 0`, and always table it. -/
def playChordNote (durationSec : Rat) (s : State) (note : String) : State :=
  let s1 := stopNote note s
  { s1 with
    voices := s1.voices ++
      [⟨s1.nextVid, note, noteToFreq note,
        if 0 < durationSec then some durationSec else none, false⟩],
    activeVoices := mset s1.activeVoices note s1.nextVid,
    nextVid := s1.nextVid + 1 }

/-- `playChord(chord)` of part_010:
`durationSec = chord.durationBeats ? beatsToSeconds(chord.durationBeats) : 0`. -/
def playChord (chord : Chord) (s : State) : State :=
  let durationSec : Rat :=
    match chord.durationBeats with
    | some b => if b = 0 then 0 else beatsToSeconds s.bpm b
    | none => 0
  chord.notes.foldl (playChordNote durationSec) s

/-- `stopAllNotes()`: fade and stop every tabled voice, then clear the table. -/
def stopAllNotes (s : State) : State :=
  let tabled := s.activeVoices.map (fun p => p.2)
  { s with
    voices := s.voices.map (fun v =>
      if v.vid ∈ tabled then { v with stopped := true } else v),
    activeVoices := [] }

/-- Voices for `note` that are still sounding: no stop scheduled at creation
and no explicit stop issued. -/
def soundingFor (s : State) (note : String) : List Voice :=
  s.voices.filter (fun v => decide (v.note = note) && v.stopAfter.isNone && !v.stopped)

/-- Structural invariant of the part_010 engine state: voice ids are bounded
by the fresh-id counter and duplicate-free, table keys are duplicate-free,
and every sounding voice (no scheduled stop, not stopped) is tabled under its
note.  It holds in the initial state and is preserved by the operations. -/
def Inv (s : State) : Prop :=
  (∀ v ∈ s.voices, v.vid < s.nextVid) ∧
  (s.voices.map (fun v => v.vid)).Nodup ∧
  (s.activeVoices.map Prod.fst).Nodup ∧
  (∀ v ∈ s.voices, v.stopAfter = none → v.stopped = false →
    (v.note, v.vid) ∈ s.activeVoices)

instance (s : State) : Decidable (Inv s) := by
  unfold Inv
  infer_instance

end E10

/-! ## Soundfont-capable engine: `src/unnamed/part_012` (namespace `E12`)

The richest engine iteration: oscillator fallback plus a soundfont path with
per-note stop-closure sets, a timer list for the sequence scheduler, `panic`,
and release-time configuration.  Timers (`window.setTimeout`) are pending
entries with their callback payload: a sequence `schedule(index)` closure or a
soundfont stop closure.  Voices are logged as in `E10` (without the midi
number, which no claim about this engine inspects); `sf` marks soundfont
voices.  `noteToFreq` here is the same code as part_010's and is not
re-embedded, since no claim inspects this engine's frequencies. -/

namespace E12

structure Voice where
  vid : Nat
  note : String
  sf : Bool
  stopAfter : Option Rat
  stopped : Bool
  deriving DecidableEq

structure Chord where
  notes : List String
  durationBeats : Option Rat
  deriving DecidableEq

/-- Chord of the `playSequence` signature, where `durationBeats` is required. -/
structure SeqChord where
  notes : List String
  durationBeats : Rat
  deriving DecidableEq

inductive Payload where
  | seqStep (chords : List SeqChord) (loop : Bool) (onStep : Bool) (index : Nat)
  | sfStop (note : String) (handle : Nat)
  deriving DecidableEq

def Payload.isSeqStep : Payload → Bool
  | .seqStep _ _ _ _ => true
  | .sfStop _ _ => false

structure Timer where
  id : Nat
  delayMs : Rat
  payload : Payload
  deriving DecidableEq

structure State where
  bpm : Rat
  useSoundfont : Bool
  soundfontReady : Bool
  sfInstrument : Option String
  currentInstrument : String
  sfLoaded : List String
  noteReleaseSec : Rat
  activeVoices : List (String × Nat)
  sfActiveNotes : List (String × List Nat)
  sequenceTimeouts : List Nat
  pending : List Timer
  nextTimerId : Nat
  voices : List Voice
  nextVid : Nat
  stepLog : List (SeqChord × Nat)
  deriving DecidableEq

/-- `new AudioEngine()` with its defaults (120 bpm, oscillator fallback,
release 0.25 s, grand piano selected but no soundfont in use). -/
def init : State :=
  { bpm := 120, useSoundfont := false, soundfontReady := false,
    sfInstrument := none, currentInstrument := "acoustic_grand_piano",
    sfLoaded := [], noteReleaseSec := 1/4, activeVoices := [],
    sfActiveNotes := [], sequenceTimeouts := [], pending := [],
    nextTimerId := 0, voices := [], nextVid := 0, stepLog := [] }

def beatsToSeconds (bpm beats : Rat) : Rat := 60 / bpm * beats

def setBpm (bpm : Rat) (s : State) : State := { s with bpm := bpm }

def setReleaseTime (sec : Rat) (s : State) : State := { s with noteReleaseSec := sec }

/-- JS truthiness of an optional number (`undefined` and `0` are falsy). -/
def truthy : Option Rat → Bool
  | none => false
  | some d => decide (d ≠ 0)

/-- Mark the voice with id `vid` as explicitly stopped. -/
def markStopped (vid : Nat) (voices : List Voice) : List Voice :=
  voices.map (fun v => if v.vid = vid then { v with stopped := true } else v)

/-- `loadSoundfont(name)` up to its `await`: a cached instrument is installed
synchronously; otherwise the engine is only marked not-ready while
`Soundfont.instrument` is in flight.  Note that `useSoundfont` is *not* set on
this path — on a first-ever load it stays `false` until the load resolves. -/
def loadStart (name : String) (s : State) : State :=
  if s.sfLoaded.contains name then
    { s with sfInstrument := some name, currentInstrument := name,
             useSoundfont := true, soundfontReady := true }
  else { s with soundfontReady := false }

/-- Resolution of the `await Soundfont.instrument(...)` inside
`loadSoundfont`: cache the instrument, install it and mark the engine ready. -/
def loadFinish (name : String) (s : State) : State :=
  { s with sfLoaded := s.sfLoaded ++ [name], sfInstrument := some name,
           currentInstrument := name, useSoundfont := true, soundfontReady := true }

/-- `playSfNote(note, time)`: start a soundfont voice and register its stop
closure under `note`; the handle (our fresh voice id) identifies the closure.
With no instrument installed the no-op closure is returned and nothing
plays. -/
def playSfNote (note : String) (s : State) : Option Nat × State :=
  if s.sfInstrument.isSome then
    let vid := s.nextVid
    let sets := (mfind s.sfActiveNotes note).getD []
    (some vid,
     { s with voices := s.voices ++ [⟨vid, note, true, none, false⟩],
              sfActiveNotes := mset s.sfActiveNotes note (sets ++ [vid]),
              nextVid := vid + 1 })
  else (none, s)

/-- `window.setTimeout(stopFn, delayMs)` for a soundfont stop closure. -/
def pushSfTimer (note : String) (handle : Nat) (delayMs : Rat) (s : State) : State :=
  { s with pending := s.pending ++ [⟨s.nextTimerId, delayMs, .sfStop note handle⟩],
           nextTimerId := s.nextTimerId + 1 }

/-- `playNote(note, durationSec?)` of part_012.  Unlike part_010 there is *no*
`stopNote` call first: an existing voice for `note` is neither stopped nor
faded — a held retrigger merely overwrites the table binding, orphaning the
previous oscillator, which keeps sounding. -/
def playNote (note : String) (durationSec : Option Rat) (s : State) : State :=
  if s.useSoundfont && !s.soundfontReady then s
  else if s.useSoundfont && s.sfInstrument.isSome then
    match playSfNote note s with
    | (some h, s1) =>
      if truthy durationSec then pushSfTimer note h (durationSec.getD 0 * 1000) s1 else s1
    | (none, s1) => s1
  else
    match durationSec with
    | some d =>
      if 0 < d then
        { s with voices := s.voices ++ [⟨s.nextVid, note, false, some d, false⟩],
                 nextVid := s.nextVid + 1 }
      else
        { s with voices := s.voices ++ [⟨s.nextVid, note, false, none, false⟩],
                 activeVoices := mset s.activeVoices note s.nextVid,
                 nextVid := s.nextVid + 1 }
    | none =>
      { s with voices := s.voices ++ [⟨s.nextVid, note, false, none, false⟩],
               activeVoices := mset s.activeVoices note s.nextVid,
               nextVid := s.nextVid + 1 }

/-- Per-note body of `playChord`'s oscillator `forEach`: the overlap guard is
commented out in the source, so no existing voice is stopped; the new voice is
always tabled, and a truthy `durationSec` schedules its stop at creation. -/
def playChordOscNote (durationSec : Option Rat) (s : State) (note : String) : State :=
  { s with
    voices := s.voices ++
      [⟨s.nextVid, note, false, if truthy durationSec then durationSec else none, false⟩],
    activeVoices := mset s.activeVoices note s.nextVid,
    nextVid := s.nextVid + 1 }

/-- Per-note body of `playChord`'s soundfont `forEach`. -/
def playChordSfNote (durationSec : Option Rat) (s : State) (note : String) : State :=
  match playSfNote note s with
  | (some h, s1) =>
    if truthy durationSec then pushSfTimer note h (durationSec.getD 0 * 1000) s1 else s1
  | (none, s1) => s1

/-- The `durationSec` computed at the top of part_012's `playChord`:
`chord.durationBeats ? this.beatsToSeconds(chord.durationBeats) : undefined`
(a falsy — absent or zero — `durationBeats` leaves it undefined). -/
def chordDurationSec (s : State) (db : Option Rat) : Option Rat :=
  match db with
  | some b => if b = 0 then none else some (beatsToSeconds s.bpm b)
  | none => none

/-- `playChord(chord)` of part_012: a selected-but-not-ready soundfont returns
before any voice is triggered; otherwise one voice per note on the soundfont
or oscillator path. -/
def playChord (chord : Chord) (s : State) : State :=
  let durationSec : Option Rat := chordDurationSec s chord.durationBeats
  if s.useSoundfont && !s.soundfontReady then s
  else if s.useSoundfont && s.sfInstrument.isSome then
    chord.notes.foldl (playChordSfNote durationSec) s
  else
    chord.notes.foldl (playChordOscNote durationSec) s

/-- The oscillator branch of `stopNote`. -/
def stopNoteOsc (note : String) (s : State) : State :=
  match mfind s.activeVoices note with
  | none => s
  | some vid =>
    { s with voices := markStopped vid s.voices,
             activeVoices := mdel s.activeVoices note }

/-- `stopNote(note)` of part_012: a non-empty soundfont stop-set schedules
every stop closure after the release time and deregisters the note;
otherwise the tabled oscillator voice (if any) is faded and dropped. -/
def stopNote (note : String) (s : State) : State :=
  match mfind s.sfActiveNotes note with
  | some stopSet =>
    if stopSet.isEmpty then stopNoteOsc note s
    else
      let s1 := stopSet.foldl (fun st h => pushSfTimer note h (st.noteReleaseSec * 1000) st) s
      { s1 with sfActiveNotes := mdel s1.sfActiveNotes note }
  | none => stopNoteOsc note s

/-- `stopAllNotes()`: fade and stop every tabled oscillator voice and clear
the table; run every registered soundfont stop closure and clear the
registry.  Orphaned voices (reachable from neither map) are untouched. -/
def stopAllNotes (s : State) : State :=
  let oscVids := s.activeVoices.map (fun p => p.2)
  let sfVids := (s.sfActiveNotes.map (fun p => p.2)).flatten
  { s with
    voices := s.voices.map (fun v =>
      if v.vid ∈ oscVids ∨ v.vid ∈ sfVids then { v with stopped := true } else v),
    activeVoices := [], sfActiveNotes := [] }

/-- `stopSequence()` of part_012: `sequenceTimeouts.forEach(clearTimeout)`
(every pending timer whose id is tracked is cancelled), reset the id list,
then — unconditionally — `stopAllNotes()`. -/
def stopSequence (s : State) : State :=
  let s1 : State :=
    { s with pending := s.pending.filter (fun t => !decide (t.id ∈ s.sequenceTimeouts)),
             sequenceTimeouts := [] }
  stopAllNotes s1

/-- `panic()`: `stopSequence()` then `stopAllNotes()` again. -/
def panic (s : State) : State := stopAllNotes (stopSequence s)

/-- Body of one sequence step at a valid index: play the chord, invoke
`onStep` synchronously (logged) when supplied, compute
`durationMs = beatsToSeconds(durationBeats) * 1000` and arm the next step,
pushing the timer id onto `sequenceTimeouts`. -/
def seqFire (chords : List SeqChord) (loop : Bool) (onStep : Bool) (index : Nat)
    (c : SeqChord) (s : State) : State :=
  let s1 := playChord ⟨c.notes, some c.durationBeats⟩ s
  let s2 : State := if onStep then { s1 with stepLog := s1.stepLog ++ [(c, index)] } else s1
  let durationMs := beatsToSeconds s2.bpm c.durationBeats * 1000
  { s2 with
    pending := s2.pending ++
      [⟨s2.nextTimerId, durationMs, .seqStep chords loop onStep (index + 1)⟩],
    sequenceTimeouts := s2.sequenceTimeouts ++ [s2.nextTimerId],
    nextTimerId := s2.nextTimerId + 1 }

/-- The `schedule` closure of part_012's `playSequence`.  A missing
`chords[index]` wraps to `schedule(0)` when `loop` is set — for a *nonempty*
list that lands on a valid chord at once (unrolled here); for an *empty* list
with `loop` the source recurses without bound (a stack overflow), modelled as
`none`.  Without `loop` it just returns. -/
def schedule (chords : List SeqChord) (loop : Bool) (onStep : Bool) (index : Nat)
    (s : State) : Option State :=
  match chords[index]? with
  | some c => some (seqFire chords loop onStep index c s)
  | none =>
    if loop then
      match chords with
      | [] => none
      | c0 :: _ => some (seqFire chords loop onStep 0 c0 s)
    else some s

/-- `playSequence(chords, startIndex = 0, loop = false, onStep?)` of part_012:
no empty-list guard — it always runs `stopSequence()` first (cancelling timers
and stopping all voices), then `schedule(startIndex)` synchronously. -/
def playSequence (chords : List SeqChord) (startIndex : Nat) (loop : Bool)
    (onStep : Bool) (s : State) : Option State :=
  schedule chords loop onStep startIndex (stopSequence s)

/-- Run a registered soundfont stop closure: stop its node (try/catch — never
throws) and deregister the handle, deleting the note entry when it empties. -/
def execSfStop (note : String) (handle : Nat) (s : State) : State :=
  let s1 : State := { s with voices := markStopped handle s.voices }
  match mfind s1.sfActiveNotes note with
  | none => s1
  | some set =>
    let set2 := set.filter (fun h => !decide (h = handle))
    if set2.isEmpty then { s1 with sfActiveNotes := mdel s1.sfActiveNotes note }
    else { s1 with sfActiveNotes := mset s1.sfActiveNotes note set2 }

/-- The event loop fires pending timer `tid` (a no-op if it was cancelled):
the timer is removed and its callback runs. -/
def fire (tid : Nat) (s : State) : Option State :=
  match s.pending.find? (fun t => decide (t.id = tid)) with
  | none => some s
  | some t =>
    let s1 : State := { s with pending := s.pending.filter (fun u => !decide (u.id = tid)) }
    match t.payload with
    | .seqStep chords loop onStep index => schedule chords loop onStep index s1
    | .sfStop note handle => some (execSfStop note handle s1)

/-- Voices for `note` that are still sounding: no stop scheduled at creation
and no explicit stop issued. -/
def soundingFor (s : State) (note : String) : List Voice :=
  s.voices.filter (fun v => decide (v.note = note) && v.stopAfter.isNone && !v.stopped)

/-- The timer invariant of the sequence scheduler: every pending timer whose
callback is a sequence step has its id tracked in `sequenceTimeouts` (so
`stopSequence`/`panic` can cancel it). -/
def TimerInv (s : State) : Prop :=
  ∀ t ∈ s.pending, t.payload.isSeqStep = true → t.id ∈ s.sequenceTimeouts

instance (s : State) : Decidable (TimerInv s) := by
  unfold TimerInv; infer_instance

end E12

namespace AH

theorem bumpOct_some_not_leLast (sv : Int) (last : Option Int) :
    ∀ fuel oct m oct2, bumpOct sv last fuel oct = (some m, oct2) →
      leLast m last = false := by
  intro fuel
  induction fuel with
  | zero =>
    intro oct m oct2 h
    rw [bumpOct] at h
    exact absurd (congrArg Prod.fst h) (by simp)
  | succ n ih =>
    intro oct m oct2 h
    rw [bumpOct] at h
    cases hm : noteMidi sv oct with
    | none =>
      rw [hm] at h
      exact absurd (congrArg Prod.fst h) (by simp)
    | some m0 =>
      simp only [hm] at h
      by_cases hle : leLast m0 last = true
      · rw [if_pos hle] at h
        exact ih _ _ _ h
      · rw [if_neg hle] at h
        have hm0 : m0 = m := by simpa using congrArg Prod.fst h
        rw [← hm0]
        simpa using hle

theorem voiceChordPairs_chain (notes : List String) :
    ∀ oct last,
      List.Chain' (fun a b => a < b)
        ((voiceChordPairs notes oct last).map (fun p => p.2.2)) ∧
      (∀ m, ((voiceChordPairs notes oct last).map (fun p => p.2.2)).head? = some m →
        leLast m last = false) := by
  induction notes with
  | nil => intro oct last; simp [voiceChordPairs]
  | cons pc rest ih =>
    intro oct last
    cases hp : parsePc pc with
    | none => simpa only [voiceChordPairs, hp] using ih oct last
    | some sv =>
      rcases hb : bumpOct sv last 12 oct with ⟨mo, oct2⟩
      cases mo with
      | none => simpa only [voiceChordPairs, hp, hb] using ih oct2 last
      | some m =>
        have hml := bumpOct_some_not_leLast sv last 12 oct m oct2 hb
        have ih2 := ih oct2 (some m)
        constructor
        · simp only [voiceChordPairs, hp, hb, List.map_cons]
          refine List.chain'_cons'.mpr ⟨?_, ih2.1⟩
          intro y hy
          have hy2 := ih2.2 y hy
          simp only [leLast, decide_eq_false_iff_not, not_le] at hy2
          exact hy2
        · intro m0 hm0
          simp only [voiceChordPairs, hp, hb, List.map_cons, List.head?_cons,
            Option.some.injEq] at hm0
          rw [← hm0]
          exact hml

theorem voiceChordPairs_sublist (notes : List String) :
    ∀ oct last,
      ((voiceChordPairs notes oct last).map (fun p => p.1)).Sublist notes := by
  induction notes with
  | nil => intro oct last; simp [voiceChordPairs]
  | cons pc rest ih =>
    intro oct last
    cases hp : parsePc pc with
    | none =>
      simp only [voiceChordPairs, hp]
      exact (ih oct last).cons pc
    | some sv =>
      rcases hb : bumpOct sv last 12 oct with ⟨mo, oct2⟩
      cases mo with
      | none =>
        simp only [voiceChordPairs, hp, hb]
        exact (ih oct2 last).cons pc
      | some m =>
        simp only [voiceChordPairs, hp, hb, List.map_cons]
        exact (ih oct2 (some m)).cons₂ pc

theorem voiceChordPairs_parseable (notes : List String) :
    ∀ oct last p, p ∈ voiceChordPairs notes oct last → (parsePc p.1).isSome := by
  induction notes with
  | nil => intro oct last p hp; simp [voiceChordPairs] at hp
  | cons pc rest ih =>
    intro oct last p hp
    cases hq : parsePc pc with
    | none =>
      simp only [voiceChordPairs, hq] at hp
      exact ih oct last p hp
    | some sv =>
      rcases hb : bumpOct sv last 12 oct with ⟨mo, oct2⟩
      cases mo with
      | none =>
        simp only [voiceChordPairs, hq, hb] at hp
        exact ih oct2 last p hp
      | some m =>
        simp only [voiceChordPairs, hq, hb] at hp
        rcases List.mem_cons.mp hp with h1 | h2
        · rw [h1]; simp [hq]
        · exact ih oct2 (some m) p h2

theorem voiceChordGo_eq_pairs (notes : List String) :
    ∀ oct last,
      voiceChordGo notes oct last =
        (voiceChordPairs notes oct last).map (fun p => p.1 ++ toString p.2.1) := by
  induction notes with
  | nil => intro oct last; simp [voiceChordPairs, voiceChordGo]
  | cons pc rest ih =>
    intro oct last
    cases hp : parsePc pc with
    | none => simp only [voiceChordGo, voiceChordPairs, hp, ih oct last]
    | some sv =>
      rcases hb : bumpOct sv last 12 oct with ⟨mo, oct2⟩
      cases mo with
      | none => simp only [voiceChordGo, voiceChordPairs, hp, hb, ih oct2 last]
      | some m =>
        simp only [voiceChordGo, voiceChordPairs, hp, hb, List.map_cons,
          ih oct2 (some m)]

example : voiceChord ["C", "E", "G", "C"] 3 = ["C3", "E3", "G3", "C4"] := by decide

example : voiceChord ["C", "C", "E"] 3 = ["C3", "C4", "E4"] := by decide

example : voiceChord ["C", "Eb", "G", "Bb"] 3 = ["C3", "Eb3", "G3", "Bb3"] := by
  decide

end AH

theorem rmax_left (a b : Rat) : a ≤ rmax a b := by
  unfold rmax
  split
  · assumption
  · exact le_refl a

namespace EN

theorem playNote_events (n : String) (d : Rat) (st : State) :
    ∃ new, (playNote n d st).events = st.events ++ new ∧ ∀ e ∈ new, e.argDuration = d := by
  unfold playNote
  cases h : noteToFreq n with
  | none => exact ⟨[], by simp, by simp⟩
  | some semi =>
    cases hs : st.sound with
    | fmPiano => exact ⟨[⟨semi, d, d + 1/50⟩], by simp, by simp⟩
    | pad => exact ⟨[⟨semi, d, d + 1/50⟩], by simp, by simp⟩
    | sine => exact ⟨[⟨semi, d, rmax (1/20) d⟩], by simp, by simp⟩
    | sawtooth => exact ⟨[⟨semi, d, rmax (1/20) d⟩], by simp, by simp⟩

theorem playNote_pending (n : String) (d : Rat) (st : State) :
    (playNote n d st).pending = st.pending := by
  unfold playNote
  cases h : noteToFreq n with
  | none => rfl
  | some semi => cases hs : st.sound <;> rfl

theorem playFold_events (secs : Rat) (notes : List String) (st : State) :
    ∃ new, (notes.foldl (fun a n => playNote n secs a) st).events = st.events ++ new ∧
      ∀ e ∈ new, e.argDuration = secs := by
  induction notes generalizing st with
  | nil => exact ⟨[], by simp, by simp⟩
  | cons n rest ih =>
    obtain ⟨n1, h1, h2⟩ := playNote_events n secs st
    obtain ⟨n2, h3, h4⟩ := ih (playNote n secs st)
    refine ⟨n1 ++ n2, ?_, ?_⟩
    · simp only [List.foldl_cons, h3, h1, List.append_assoc]
    · intro e he
      rcases List.mem_append.mp he with hh | hh
      · exact h2 e hh
      · exact h4 e hh

theorem playFold_pending (secs : Rat) (notes : List String) (st : State) :
    (notes.foldl (fun a n => playNote n secs a) st).pending = st.pending := by
  induction notes generalizing st with
  | nil => rfl
  | cons n rest ih =>
    rw [List.foldl_cons, ih (playNote n secs st), playNote_pending]

theorem playChord_events (c : AudioChord) (s : State) :
    ∃ new, (playChord c s).events = s.events ++ new ∧
      ∀ e ∈ new, 3/100 ≤ e.argDuration := by
  unfold playChord
  obtain ⟨new, h1, h2⟩ := playFold_events (rmax (3/100) (c.durationBeats.getD 1 * (60000 / rmax 1 s.bpm) / 1000)) c.notes s
  refine ⟨new, h1, fun e he => ?_⟩
  rw [h2 e he]
  exact rmax_left _ _

theorem playChord_pending (c : AudioChord) (s : State) :
    (playChord c s).pending = s.pending := by
  unfold playChord
  exact playFold_pending _ _ _

theorem stopSequence_pending_sub (s : State) {t : Timer}
    (h : t ∈ (stopSequence s).pending) : t ∈ s.pending := by
  unfold stopSequence at h
  cases hq : s.seqTimeout with
  | none => simpa [hq] using h
  | some tid =>
    simp only [hq] at h
    exact List.mem_of_mem_filter h

theorem armTick_new_timers (chords : List AudioChord) (delay : Rat) (st : State)
    {t : Timer} (h : t ∈ (armTick chords delay st).pending) :
    t ∈ st.pending ∨ t.delayMs = delay := by
  unfold armTick at h
  rcases List.mem_append.mp h with hh | hh
  · exact Or.inl hh
  · right
    rw [List.mem_singleton.mp hh]

theorem tick_new_timers (chords : List AudioChord) (s : State) :
    ∀ t ∈ (tick chords s).pending, t ∈ s.pending ∨ 20 ≤ t.delayMs := by
  intro t ht
  unfold tick at ht
  split at ht
  · exact Or.inl ht
  · split at ht
    · exact Or.inl (stopSequence_pending_sub s ht)
    · dsimp only at ht
      split at ht
      · split at ht
        · rcases armTick_new_timers _ _ _ ht with hh | hh
          · dsimp only at hh
            rw [playChord_pending] at hh
            exact Or.inl hh
          · rw [hh]
            exact Or.inr (rmax_left 20 _)
        · have hsub := stopSequence_pending_sub _ ht
          dsimp only at hsub
          rw [playChord_pending] at hsub
          exact Or.inl hsub
      · rcases armTick_new_timers _ _ _ ht with hh | hh
        · dsimp only at hh
          rw [playChord_pending] at hh
          exact Or.inl hh
        · rw [hh]
          exact Or.inr (rmax_left 20 _)

theorem playSequence_new_timers (chords : List AudioChord) (startIndex : Nat)
    (loop : Bool) (s : State) :
    ∀ t ∈ (playSequence chords startIndex loop s).pending,
      t ∈ s.pending ∨ 20 ≤ t.delayMs := by
  intro t ht
  unfold playSequence at ht
  by_cases he : chords.isEmpty = true
  · rw [if_pos he] at ht
    exact Or.inl ht
  · rw [if_neg he] at ht
    rcases tick_new_timers chords _ t ht with hh | hh
    · exact Or.inl (stopSequence_pending_sub s hh)
    · exact Or.inr hh

end EN

/-! ### Association-list (JS `Map`) lemmas -/

theorem mem_mset_self {α : Type} (m : List (String × α)) (k : String) (v : α) :
    (k, v) ∈ mset m k v := by
  unfold mset
  by_cases h : m.any (fun p => decide (p.1 = k)) = true
  · rw [if_pos h]
    obtain ⟨p, hp, hpk⟩ := List.any_eq_true.mp h
    refine List.mem_map.mpr ⟨p, hp, ?_⟩
    rw [if_pos (of_decide_eq_true hpk)]
  · rw [if_neg h]
    exact List.mem_append_right _ (List.mem_singleton.mpr rfl)

theorem mem_mset_of_ne {α : Type} {m : List (String × α)} {q : String × α}
    {k : String} (hq : q ∈ m) (hne : q.1 ≠ k) (v : α) : q ∈ mset m k v := by
  unfold mset
  by_cases h : m.any (fun p => decide (p.1 = k)) = true
  · rw [if_pos h]
    refine List.mem_map.mpr ⟨q, hq, ?_⟩
    rw [if_neg hne]
  · rw [if_neg h]
    exact List.mem_append_left _ hq

theorem mset_mem_elim {α : Type} {m : List (String × α)} {k : String} {v : α}
    {q : String × α} (h : q ∈ mset m k v) : q = (k, v) ∨ (q ∈ m ∧ q.1 ≠ k) := by
  unfold mset at h
  by_cases ha : m.any (fun p => decide (p.1 = k)) = true
  · rw [if_pos ha] at h
    obtain ⟨p, hp, hfp⟩ := List.mem_map.mp h
    by_cases hpk : p.1 = k
    · rw [if_pos hpk] at hfp
      exact Or.inl hfp.symm
    · rw [if_neg hpk] at hfp
      exact Or.inr ⟨hfp ▸ hp, hfp ▸ hpk⟩
  · rw [if_neg ha] at h
    rcases List.mem_append.mp h with hh | hh
    · refine Or.inr ⟨hh, fun hk => ?_⟩
      exact ha (List.any_eq_true.mpr ⟨q, hh, decide_eq_true hk⟩)
    · exact Or.inl (List.mem_singleton.mp hh)

theorem keys_map_ite {α : Type} (m : List (String × α)) (k : String) (v : α) :
    (m.map (fun p => if p.1 = k then (k, v) else p)).map Prod.fst = m.map Prod.fst := by
  induction m with
  | nil => rfl
  | cons p rest ih =>
    by_cases hp : p.1 = k
    · simp [hp, ih]
    · simp [hp, ih]

theorem mset_keys_nodup {α : Type} {m : List (String × α)} {k : String} (v : α)
    (h : (m.map Prod.fst).Nodup) : ((mset m k v).map Prod.fst).Nodup := by
  unfold mset
  by_cases ha : m.any (fun p => decide (p.1 = k)) = true
  · rw [if_pos ha, keys_map_ite]
    exact h
  · rw [if_neg ha, List.map_append, List.nodup_append]
    refine ⟨h, by simp, ?_⟩
    intro a haa hab
    simp only [List.map_cons, List.map_nil, List.mem_singleton] at hab
    subst hab
    obtain ⟨p, hp, hpk⟩ := List.mem_map.mp haa
    exact ha (List.any_eq_true.mpr ⟨p, hp, decide_eq_true hpk⟩)

theorem mem_mdel {α : Type} {m : List (String × α)} {k : String} {q : String × α} :
    q ∈ mdel m k ↔ q ∈ m ∧ q.1 ≠ k := by
  unfold mdel
  constructor
  · intro h
    have h2 := List.mem_filter.mp h
    refine ⟨h2.1, ?_⟩
    have h3 := h2.2
    simp only [Bool.not_eq_eq_eq_not, Bool.not_true, decide_eq_false_iff_not] at h3
    exact h3
  · intro h
    refine List.mem_filter.mpr ⟨h.1, ?_⟩
    simp only [Bool.not_eq_eq_eq_not, Bool.not_true, decide_eq_false_iff_not]
    exact h.2

theorem mdel_keys_nodup {α : Type} {m : List (String × α)} {k : String}
    (h : (m.map Prod.fst).Nodup) : ((mdel m k).map Prod.fst).Nodup := by
  unfold mdel
  exact List.Nodup.sublist ((List.filter_sublist m).map Prod.fst) h

theorem mfind_some {α : Type} {m : List (String × α)} {k : String} {v : α}
    (h : mfind m k = some v) : (k, v) ∈ m := by
  unfold mfind at h
  cases hf : m.find? (fun p => decide (p.1 = k)) with
  | none => rw [hf] at h; simp at h
  | some p =>
    rw [hf] at h
    simp at h
    obtain ⟨p1, p2⟩ := p
    have hm := List.mem_of_find?_eq_some hf
    have hp := List.find?_some hf
    have h1 : p1 = k := of_decide_eq_true hp
    have h2 : p2 = v := by simpa using h
    rw [← h1, ← h2]
    exact hm

theorem mfind_none {α : Type} {m : List (String × α)} {k : String}
    (h : mfind m k = none) : ∀ p ∈ m, p.1 ≠ k := by
  unfold mfind at h
  cases hf : m.find? (fun p => decide (p.1 = k)) with
  | some p => rw [hf] at h; simp at h
  | none =>
    intro p hp hk
    exact (List.find?_eq_none.mp hf p hp) (decide_eq_true hk)

theorem keys_nodup_eq {α : Type} {m : List (String × α)}
    (h : (m.map Prod.fst).Nodup) {k : String} {a b : α}
    (ha : (k, a) ∈ m) (hb : (k, b) ∈ m) : a = b := by
  induction m with
  | nil => cases ha
  | cons p rest ih =>
    rw [List.map_cons, List.nodup_cons] at h
    rcases List.mem_cons.mp ha with h1 | h1 <;> rcases List.mem_cons.mp hb with h2 | h2
    · simpa using h1.trans h2.symm
    · exfalso
      apply h.1
      have hk : p.1 = k := by rw [← h1]
      rw [hk]
      simpa using List.mem_map_of_mem Prod.fst h2
    · exfalso
      apply h.1
      have hk : p.1 = k := by rw [← h2]
      rw [hk]
      simpa using List.mem_map_of_mem Prod.fst h1
    · exact ih h.2 h1 h2

namespace E10

theorem marked_vids (voices : List Voice) (vid : Nat) :
    ((voices.map (fun v => if v.vid = vid then { v with stopped := true } else v)).map
      (fun v => v.vid)) = voices.map (fun v => v.vid) := by
  induction voices with
  | nil => rfl
  | cons v rest ih =>
    by_cases h : v.vid = vid
    · simp [h, ih]
    · simp [h, ih]

theorem soundingFor_stopNote (s : State) (note : String) (hInv : Inv s) :
    soundingFor (stopNote note s) note = [] := by
  apply List.eq_nil_iff_forall_not_mem.mpr
  intro v' hv'
  unfold soundingFor at hv'
  obtain ⟨hv'mem, hpred⟩ := List.mem_filter.mp hv'
  simp only [Bool.and_eq_true, decide_eq_true_eq, Option.isNone_iff_eq_none,
    Bool.not_eq_eq_eq_not, Bool.not_true] at hpred
  obtain ⟨⟨hnote, hafter⟩, hstop⟩ := hpred
  unfold stopNote at hv'mem
  cases hf : mfind s.activeVoices note with
  | none =>
    simp only [hf] at hv'mem
    have hmem2 := hInv.2.2.2 v' hv'mem hafter hstop
    exact (mfind_none hf (v'.note, v'.vid) hmem2) hnote
  | some vid =>
    simp only [hf] at hv'mem
    obtain ⟨v, hv, hmark⟩ := List.mem_map.mp hv'mem
    by_cases hvid : v.vid = vid
    · rw [if_pos hvid] at hmark
      rw [← hmark] at hstop
      simp at hstop
    · rw [if_neg hvid] at hmark
      subst hmark
      have hmem2 := hInv.2.2.2 v hv hafter hstop
      have h2 : (note, v.vid) ∈ s.activeVoices := by
        rw [← hnote]
        exact hmem2
      exact hvid (keys_nodup_eq hInv.2.2.1 h2 (mfind_some hf))

theorem Inv_stopNote (s : State) (note : String) (hInv : Inv s) :
    Inv (stopNote note s) := by
  unfold stopNote
  cases hf : mfind s.activeVoices note with
  | none => exact hInv
  | some vid =>
    refine ⟨?_, ?_, ?_, ?_⟩
    · intro v' hv'
      obtain ⟨v, hv, hmark⟩ := List.mem_map.mp hv'
      have hb := hInv.1 v hv
      by_cases hvid : v.vid = vid
      · rw [if_pos hvid] at hmark
        rw [← hmark]
        exact hb
      · rw [if_neg hvid] at hmark
        rw [← hmark]
        exact hb
    · show ((s.voices.map _).map _).Nodup
      rw [marked_vids]
      exact hInv.2.1
    · exact mdel_keys_nodup hInv.2.2.1
    · intro v' hv' hafter hstopped
      obtain ⟨v, hv, hmark⟩ := List.mem_map.mp hv'
      by_cases hvid : v.vid = vid
      · rw [if_pos hvid] at hmark
        exfalso
        rw [← hmark] at hstopped
        simp at hstopped
      · rw [if_neg hvid] at hmark
        subst hmark
        have hmem := hInv.2.2.2 v hv hafter hstopped
        apply mem_mdel.mpr
        refine ⟨hmem, ?_⟩
        intro hnote
        have h2 : (note, v.vid) ∈ s.activeVoices := by
          rw [← hnote]
          exact hmem
        exact hvid (keys_nodup_eq hInv.2.2.1 h2 (mfind_some hf))

theorem stopNote_nextVid (s : State) (note : String) :
    (stopNote note s).nextVid = s.nextVid := by
  unfold stopNote
  cases hf : mfind s.activeVoices note with
  | none => rfl
  | some vid => rfl

theorem soundingFor_playNote_none (s : State) (note : String) (hInv : Inv s) :
    soundingFor (playNote note none s) note =
      [⟨(stopNote note s).nextVid, note, noteToFreq note, none, false⟩] := by
  have hstop := soundingFor_stopNote s note hInv
  unfold soundingFor at hstop ⊢
  unfold playNote
  dsimp only
  rw [List.filter_append, hstop]
  simp

theorem Inv_heldVoice (s : State) (note : String) (stopAfter : Option Rat)
    (hInv : Inv s) :
    Inv { stopNote note s with
          voices := (stopNote note s).voices ++
            [⟨(stopNote note s).nextVid, note, noteToFreq note, stopAfter, false⟩],
          activeVoices := mset (stopNote note s).activeVoices note
            (stopNote note s).nextVid,
          nextVid := (stopNote note s).nextVid + 1 } := by
  have h1 := Inv_stopNote s note hInv
  have hA := soundingFor_stopNote s note hInv
  refine ⟨?_, ?_, ?_, ?_⟩
  · intro v hv
    rcases List.mem_append.mp hv with hh | hh
    · exact Nat.lt_succ_of_lt (h1.1 v hh)
    · rw [List.mem_singleton.mp hh]
      exact Nat.lt_succ_self _
  · rw [List.map_append, List.nodup_append]
    refine ⟨h1.2.1, by simp, ?_⟩
    intro a ha hb
    simp only [List.map_cons, List.map_nil, List.mem_singleton] at hb
    obtain ⟨v, hv, hveq⟩ := List.mem_map.mp ha
    have := h1.1 v hv
    rw [hveq, hb] at this
    exact Nat.lt_irrefl _ this
  · exact mset_keys_nodup _ h1.2.2.1
  · intro v hv hafter hstopped
    rcases List.mem_append.mp hv with hh | hh
    · have hmem := h1.2.2.2 v hh hafter hstopped
      have hnne : v.note ≠ note := by
        intro heq
        have hsound : v ∈ soundingFor (stopNote note s) note := by
          unfold soundingFor
          exact List.mem_filter.mpr ⟨hh, by simp [heq, hafter, hstopped]⟩
        rw [hA] at hsound
        cases hsound
      exact mem_mset_of_ne hmem hnne _
    · rw [List.mem_singleton.mp hh]
      exact mem_mset_self _ _ _

theorem Inv_playNote_none (s : State) (note : String) (hInv : Inv s) :
    Inv (playNote note none s) := by
  unfold playNote
  dsimp only
  exact Inv_heldVoice s note none hInv

/-- `Inv` is preserved by `playNote` with any duration: a positive duration
yields an untabled one-shot (its `stopAfter` exempts it from the tabling
condition); anything else is the held case. -/
theorem Inv_playNote (note : String) (d : Option Rat) (s : State)
    (hInv : Inv s) : Inv (playNote note d s) := by
  have h1 := Inv_stopNote s note hInv
  unfold playNote
  dsimp only
  cases d with
  | none => exact Inv_heldVoice s note none hInv
  | some dv =>
    dsimp only
    by_cases hd : (0 : Rat) < dv
    · rw [if_pos hd]
      refine ⟨?_, ?_, h1.2.2.1, ?_⟩
      · intro v hv
        rcases List.mem_append.mp hv with hh | hh
        · exact Nat.lt_succ_of_lt (h1.1 v hh)
        · rw [List.mem_singleton.mp hh]
          exact Nat.lt_succ_self _
      · rw [List.map_append, List.nodup_append]
        refine ⟨h1.2.1, by simp, ?_⟩
        intro a ha hb
        simp only [List.map_cons, List.map_nil, List.mem_singleton] at hb
        obtain ⟨v, hv, hveq⟩ := List.mem_map.mp ha
        have := h1.1 v hv
        rw [hveq, hb] at this
        exact Nat.lt_irrefl _ this
      · intro v hv hafter hstopped
        rcases List.mem_append.mp hv with hh | hh
        · exact h1.2.2.2 v hh hafter hstopped
        · exfalso
          rw [List.mem_singleton.mp hh] at hafter
          simp at hafter
    · rw [if_neg hd]
      exact Inv_heldVoice s note none hInv

theorem Inv_playChordNote (dur : Rat) (s : State) (note : String)
    (hInv : Inv s) : Inv (playChordNote dur s note) := by
  unfold playChordNote
  dsimp only
  exact Inv_heldVoice s note (if 0 < dur then some dur else none) hInv

theorem Inv_playChordFold (dur : Rat) (notes : List String) (s : State)
    (hInv : Inv s) : Inv (notes.foldl (playChordNote dur) s) := by
  induction notes generalizing s with
  | nil => exact hInv
  | cons n rest ih =>
    rw [List.foldl_cons]
    exact ih _ (Inv_playChordNote dur s n hInv)

theorem Inv_playChord (chord : Chord) (s : State) (hInv : Inv s) :
    Inv (playChord chord s) := by
  unfold playChord
  dsimp only
  exact Inv_playChordFold _ chord.notes s hInv

theorem markMem_vids (l : List Voice) (ns : List Nat) :
    ((l.map (fun v => if v.vid ∈ ns then { v with stopped := true } else v)).map
      (fun v => v.vid)) = l.map (fun v => v.vid) := by
  induction l with
  | nil => rfl
  | cons v rest ih =>
    by_cases h : v.vid ∈ ns
    · simp [h, ih]
    · simp [h, ih]

theorem Inv_stopAllNotes (s : State) (hInv : Inv s) : Inv (stopAllNotes s) := by
  unfold stopAllNotes
  dsimp only
  refine ⟨?_, ?_, by simp, ?_⟩
  · intro v' hv'
    obtain ⟨v, hv, hmark⟩ := List.mem_map.mp hv'
    have hb := hInv.1 v hv
    by_cases hc : v.vid ∈ s.activeVoices.map (fun p => p.2)
    · rw [if_pos hc] at hmark
      rw [← hmark]
      exact hb
    · rw [if_neg hc] at hmark
      rw [← hmark]
      exact hb
  · rw [markMem_vids]
    exact hInv.2.1
  · intro v' hv' hafter hstopped
    exfalso
    obtain ⟨v, hv, hmark⟩ := List.mem_map.mp hv'
    by_cases hc : v.vid ∈ s.activeVoices.map (fun p => p.2)
    · rw [if_pos hc] at hmark
      rw [← hmark] at hstopped
      simp at hstopped
    · rw [if_neg hc] at hmark
      subst hmark
      have hmem := hInv.2.2.2 v hv hafter hstopped
      exact hc (List.mem_map_of_mem (fun p => p.2) hmem)

theorem Inv_init : Inv init := by decide

end E10

namespace E12

theorem stopSequence_pending (s : State) :
    (stopSequence s).pending =
      s.pending.filter (fun t => !decide (t.id ∈ s.sequenceTimeouts)) := rfl

theorem stopSequence_no_seqStep (s : State) (hInv : TimerInv s) :
    ∀ t ∈ (stopSequence s).pending, t.payload.isSeqStep = false := by
  intro t ht
  rw [stopSequence_pending] at ht
  have h1 := List.mem_filter.mp ht
  cases hq : t.payload.isSeqStep
  · rfl
  · exfalso
    have hid := hInv t h1.1 hq
    have h2 := h1.2
    simp only [Bool.not_eq_eq_eq_not, Bool.not_true, decide_eq_false_iff_not] at h2
    exact h2 hid

theorem stopAllNotes_stops_tabled (s : State) :
    ∀ p ∈ s.activeVoices, ∀ v ∈ (stopAllNotes s).voices,
      v.vid = p.2 → v.stopped = true := by
  intro p hp v hv hvid
  unfold stopAllNotes at hv
  dsimp only at hv
  obtain ⟨v0, hv0, hf⟩ := List.mem_map.mp hv
  by_cases hc : v0.vid ∈ s.activeVoices.map (fun q => q.2) ∨
      v0.vid ∈ (s.sfActiveNotes.map (fun q => q.2)).flatten
  · rw [if_pos hc] at hf
    rw [← hf]
  · rw [if_neg hc] at hf
    exfalso
    apply hc
    left
    rw [hf, hvid]
    exact List.mem_map_of_mem (fun q => q.2) hp

theorem stopSequence_stops_tabled (s : State) :
    ∀ p ∈ s.activeVoices, ∀ v ∈ (stopSequence s).voices,
      v.vid = p.2 → v.stopped = true := by
  intro p hp v hv hvid
  exact stopAllNotes_stops_tabled _ p hp v hv hvid

theorem playChordSfNote_voices (d : Option Rat) (s : State) (n : String)
    (hsf : s.sfInstrument.isSome = true) :
    (playChordSfNote d s n).voices = s.voices ++ [⟨s.nextVid, n, true, none, false⟩] ∧
    (playChordSfNote d s n).sfInstrument = s.sfInstrument := by
  unfold playChordSfNote playSfNote
  rw [if_pos hsf]
  dsimp only
  by_cases ht : truthy d = true
  · rw [if_pos ht]
    exact ⟨rfl, rfl⟩
  · rw [if_neg ht]
    exact ⟨rfl, rfl⟩

theorem sfFold (d : Option Rat) (notes : List String) (s : State)
    (hsf : s.sfInstrument.isSome = true) :
    ∃ new, (notes.foldl (playChordSfNote d) s).voices = s.voices ++ new ∧
      new.map (fun v => v.note) = notes ∧
      ∀ v ∈ new, v.sf = true := by
  induction notes generalizing s with
  | nil => exact ⟨[], by simp, rfl, by simp⟩
  | cons n rest ih =>
    have hstep := playChordSfNote_voices d s n hsf
    have hsf2 : (playChordSfNote d s n).sfInstrument.isSome = true := by
      rw [hstep.2]
      exact hsf
    obtain ⟨new2, h1, h2, h3⟩ := ih (playChordSfNote d s n) hsf2
    refine ⟨⟨s.nextVid, n, true, none, false⟩ :: new2, ?_, ?_, ?_⟩
    · rw [List.foldl_cons, h1, hstep.1, List.append_assoc]
      rfl
    · simp [h2]
    · intro v hv
      rcases List.mem_cons.mp hv with hh | hh
      · rw [hh]
      · exact h3 v hh

theorem oscFold (d : Option Rat) (notes : List String) (s : State) :
    ∃ new, (notes.foldl (playChordOscNote d) s).voices = s.voices ++ new ∧
      new.length = notes.length ∧
      ∀ v ∈ new, v.stopAfter = if truthy d then d else none := by
  induction notes generalizing s with
  | nil => exact ⟨[], by simp, rfl, by simp⟩
  | cons n rest ih =>
    obtain ⟨new2, h1, h2, h3⟩ := ih (playChordOscNote d s n)
    refine ⟨⟨s.nextVid, n, false, if truthy d then d else none, false⟩ :: new2, ?_, ?_, ?_⟩
    · rw [List.foldl_cons, h1]
      show (playChordOscNote d s n).voices ++ new2 = _
      unfold playChordOscNote
      dsimp only
      rw [List.append_assoc]
      rfl
    · simp [h2]
    · intro v hv
      rcases List.mem_cons.mp hv with hh | hh
      · rw [hh]
      · exact h3 v hh

theorem playChord_notReady (chord : Chord) (s : State)
    (h1 : s.useSoundfont = true) (h2 : s.soundfontReady = false) :
    playChord chord s = s := by
  simp [playChord, h1, h2]

theorem playChord_oscPath (chord : Chord) (s : State) (hsf : s.useSoundfont = false) :
    playChord chord s =
      chord.notes.foldl (playChordOscNote (chordDurationSec s chord.durationBeats)) s := by
  simp [playChord, hsf]

/-! `TimerInv` is a reachability invariant: it holds initially and is
preserved by every engine operation and by timer firing, so the hypothesis of
the `panic`/`stopSequence` cancellation theorems holds in every reachable
state. -/

theorem TimerInv_of_fields {s s' : State} (hp : s'.pending = s.pending)
    (hq : s'.sequenceTimeouts = s.sequenceTimeouts) (hI : TimerInv s) :
    TimerInv s' := by
  intro t ht hstep
  rw [hq]
  refine hI t ?_ hstep
  rw [← hp]
  exact ht

theorem TimerInv_init : TimerInv init := by
  intro t ht
  cases ht

theorem TimerInv_pushSfTimer (note : String) (h : Nat) (d : Rat) (s : State)
    (hI : TimerInv s) : TimerInv (pushSfTimer note h d s) := by
  intro t ht hstep
  rcases List.mem_append.mp ht with hh | hh
  · exact hI t hh hstep
  · rw [List.mem_singleton.mp hh] at hstep
    simp [Payload.isSeqStep] at hstep

theorem playSfNote_timers (note : String) (s : State) :
    (playSfNote note s).2.pending = s.pending ∧
    (playSfNote note s).2.sequenceTimeouts = s.sequenceTimeouts := by
  unfold playSfNote
  split
  · exact ⟨rfl, rfl⟩
  · exact ⟨rfl, rfl⟩

theorem TimerInv_playNote (note : String) (d : Option Rat) (s : State)
    (hI : TimerInv s) : TimerInv (playNote note d s) := by
  unfold playNote
  split
  · exact hI
  · split
    · rcases hps : playSfNote note s with ⟨ho, s1⟩
      have hts := playSfNote_timers note s
      rw [hps] at hts
      have hI1 : TimerInv s1 := TimerInv_of_fields hts.1 hts.2 hI
      cases ho with
      | some hv =>
        simp only [hps]
        split
        · exact TimerInv_pushSfTimer _ _ _ _ hI1
        · exact hI1
      | none =>
        simp only [hps]
        exact hI1
    · cases d with
      | some dv =>
        dsimp only
        by_cases hd : (0 : Rat) < dv
        · rw [if_pos hd]
          exact TimerInv_of_fields rfl rfl hI
        · rw [if_neg hd]
          exact TimerInv_of_fields rfl rfl hI
      | none =>
        dsimp only
        exact TimerInv_of_fields rfl rfl hI

theorem TimerInv_playChordSfNote (d : Option Rat) (s : State) (n : String)
    (hI : TimerInv s) : TimerInv (playChordSfNote d s n) := by
  unfold playChordSfNote
  rcases hps : playSfNote n s with ⟨ho, s1⟩
  have hts := playSfNote_timers n s
  rw [hps] at hts
  have hI1 : TimerInv s1 := TimerInv_of_fields hts.1 hts.2 hI
  cases ho with
  | some hv =>
    simp only [hps]
    split
    · exact TimerInv_pushSfTimer _ _ _ _ hI1
    · exact hI1
  | none =>
    simp only [hps]
    exact hI1

theorem TimerInv_foldSf (d : Option Rat) (notes : List String) (s : State)
    (hI : TimerInv s) : TimerInv (notes.foldl (playChordSfNote d) s) := by
  induction notes generalizing s with
  | nil => exact hI
  | cons n rest ih => exact ih _ (TimerInv_playChordSfNote d s n hI)

theorem TimerInv_foldOsc (d : Option Rat) (notes : List String) (s : State)
    (hI : TimerInv s) : TimerInv (notes.foldl (playChordOscNote d) s) := by
  induction notes generalizing s with
  | nil => exact hI
  | cons n rest ih => exact ih _ (TimerInv_of_fields rfl rfl hI)

theorem TimerInv_playChord (chord : Chord) (s : State)
    (hI : TimerInv s) : TimerInv (playChord chord s) := by
  unfold playChord
  dsimp only
  split
  · exact hI
  · split
    · exact TimerInv_foldSf _ _ _ hI
    · exact TimerInv_foldOsc _ _ _ hI

theorem TimerInv_stopNote (note : String) (s : State)
    (hI : TimerInv s) : TimerInv (stopNote note s) := by
  unfold stopNote
  cases hf : mfind s.sfActiveNotes note with
  | some stopSet =>
    simp only
    split
    · unfold stopNoteOsc
      cases hv : mfind s.activeVoices note with
      | none => exact hI
      | some vid => exact TimerInv_of_fields rfl rfl hI
    · have hfold : ∀ (hs : List Nat) (st : State), TimerInv st →
          TimerInv (hs.foldl (fun a h => pushSfTimer note h (a.noteReleaseSec * 1000) a) st) := by
        intro hs
        induction hs with
        | nil => intro st hst; exact hst
        | cons hh rest ih =>
          intro st hst
          exact ih _ (TimerInv_pushSfTimer _ _ _ _ hst)
      exact TimerInv_of_fields rfl rfl (hfold stopSet s hI)
  | none =>
    simp only
    unfold stopNoteOsc
    cases hv : mfind s.activeVoices note with
    | none => exact hI
    | some vid => exact TimerInv_of_fields rfl rfl hI

theorem TimerInv_stopAllNotes (s : State) (hI : TimerInv s) :
    TimerInv (stopAllNotes s) :=
  TimerInv_of_fields rfl rfl hI

theorem TimerInv_stopSequence (s : State) (hI : TimerInv s) :
    TimerInv (stopSequence s) := by
  intro t ht hstep
  have hfalse := stopSequence_no_seqStep s hI t ht
  rw [hstep] at hfalse
  cases hfalse

theorem TimerInv_panic (s : State) (hI : TimerInv s) : TimerInv (panic s) :=
  TimerInv_stopAllNotes _ (TimerInv_stopSequence s hI)

theorem TimerInv_seqFire (chords : List SeqChord) (loop onStep : Bool)
    (index : Nat) (c : SeqChord) (s : State) (hI : TimerInv s) :
    TimerInv (seqFire chords loop onStep index c s) := by
  have hI1 : TimerInv (playChord ⟨c.notes, some c.durationBeats⟩ s) :=
    TimerInv_playChord _ _ hI
  unfold seqFire
  dsimp only
  by_cases ho : onStep = true
  · rw [if_pos ho]
    intro t ht hstep
    rcases List.mem_append.mp ht with hh | hh
    · exact List.mem_append_left _ (hI1 t hh hstep)
    · rw [List.mem_singleton.mp hh]
      exact List.mem_append_right _ (List.mem_singleton.mpr rfl)
  · rw [if_neg ho]
    intro t ht hstep
    rcases List.mem_append.mp ht with hh | hh
    · exact List.mem_append_left _ (hI1 t hh hstep)
    · rw [List.mem_singleton.mp hh]
      exact List.mem_append_right _ (List.mem_singleton.mpr rfl)

theorem TimerInv_schedule (chords : List SeqChord) (loop onStep : Bool)
    (index : Nat) (s : State) (hI : TimerInv s) :
    ∀ s', schedule chords loop onStep index s = some s' → TimerInv s' := by
  intro s' h
  unfold schedule at h
  cases hc : chords[index]? with
  | some c =>
    simp only [hc, Option.some.injEq] at h
    rw [← h]
    exact TimerInv_seqFire chords loop onStep index c s hI
  | none =>
    simp only [hc] at h
    split at h
    · cases hl : chords with
      | nil =>
        rw [hl] at h
        cases h
      | cons c0 rest =>
        rw [hl] at h
        simp only [Option.some.injEq] at h
        rw [← h]
        exact TimerInv_seqFire (c0 :: rest) loop onStep 0 c0 s hI
    · simp only [Option.some.injEq] at h
      rw [← h]
      exact hI

theorem TimerInv_playSequence (chords : List SeqChord) (startIndex : Nat)
    (loop onStep : Bool) (s : State) (hI : TimerInv s) :
    ∀ s', playSequence chords startIndex loop onStep s = some s' → TimerInv s' :=
  fun s' h =>
    TimerInv_schedule chords loop onStep startIndex _ (TimerInv_stopSequence s hI) s' h

theorem execSfStop_timers (note : String) (handle : Nat) (s : State) :
    (execSfStop note handle s).pending = s.pending ∧
    (execSfStop note handle s).sequenceTimeouts = s.sequenceTimeouts := by
  unfold execSfStop
  dsimp only
  cases hf : mfind s.sfActiveNotes note with
  | none => simp [hf]
  | some set =>
    simp only [hf]
    split
    · exact ⟨rfl, rfl⟩
    · exact ⟨rfl, rfl⟩

theorem TimerInv_fire (tid : Nat) (s : State) (hI : TimerInv s) :
    ∀ s', fire tid s = some s' → TimerInv s' := by
  intro s' h
  unfold fire at h
  cases hf : s.pending.find? (fun t => decide (t.id = tid)) with
  | none =>
    simp only [hf, Option.some.injEq] at h
    rw [← h]
    exact hI
  | some t =>
    simp only [hf] at h
    have hI1 : TimerInv
        { s with pending := s.pending.filter (fun u => !decide (u.id = tid)) } := by
      intro u hu hstep
      exact hI u (List.mem_of_mem_filter hu) hstep
    cases hp : t.payload with
    | seqStep chords loop onStep index =>
      rw [hp] at h
      exact TimerInv_schedule chords loop onStep index _ hI1 s' h
    | sfStop note handle =>
      rw [hp] at h
      simp only [Option.some.injEq] at h
      rw [← h]
      have hts := execSfStop_timers note handle
          { s with pending := s.pending.filter (fun u => !decide (u.id = tid)) }
      exact TimerInv_of_fields hts.1 hts.2 hI1

end E12

/-! ## The claims -/

/-- C1 (amended): in the part_010 engine, `playNote` first force-stops any
existing voice for the note, so two held `playNote` calls for the same note
with no intervening stop leave *exactly one* sounding voice for it at any
inspection point, and the engine invariant (at most one table entry per note,
every sounding voice tabled) is maintained.  Amended from the original claim:
the part_012 iteration drops the `stopNote` call, so there retriggering
orphans the previous still-sounding voice (see the counterexample); and the
no-overlap guarantee concerns held notes — a part_010 `playNote` with an
explicit duration is an untabled one-shot. -/
theorem claim_C1 (s : E10.State) (note : String) (h : E10.Inv s) :
    (E10.soundingFor (E10.playNote note none (E10.playNote note none s)) note).length = 1 ∧
    E10.Inv (E10.playNote note none (E10.playNote note none s)) := by
  have h1 := E10.Inv_playNote_none s note h
  refine ⟨?_, E10.Inv_playNote_none _ note h1⟩
  rw [E10.soundingFor_playNote_none _ note h1]
  rfl

/-- Witness for C1 at the empty initial part_010 state. -/
theorem claim_C1_witness :
    E10.Inv E10.init ∧
    ((E10.soundingFor (E10.playNote "C4" none (E10.playNote "C4" none E10.init))
        "C4").length = 1 ∧
     E10.Inv (E10.playNote "C4" none (E10.playNote "C4" none E10.init))) :=
  ⟨by decide, claim_C1 E10.init "C4" (by decide)⟩

/-- C2 (amended): for every input list of pitch classes and every base octave,
the `voiceChord` output coincides with the instrumented pass
`voiceChordPairs`, whose midi values are strictly ascending; the emitted
pitch classes form a sublist of the input (nothing is reordered, each input
contributes at most one note); every emitted pitch class parses; and the
function is total (it never raises).  Amended from the original claim: a
*parseable* pitch class can still be dropped — the drop condition is a failed
midi lookup at the attempted octave (octave bumps can push past midi 127),
not mere unparseability. -/
theorem claim_C2 (notes : List String) (baseOctave : Int) :
    AH.voiceChord notes baseOctave =
      (AH.voiceChordPairs notes baseOctave none).map (fun p => p.1 ++ toString p.2.1) ∧
    List.Chain' (fun a b => a < b)
      ((AH.voiceChordPairs notes baseOctave none).map (fun p => p.2.2)) ∧
    ((AH.voiceChordPairs notes baseOctave none).map (fun p => p.1)).Sublist notes ∧
    ∀ p ∈ AH.voiceChordPairs notes baseOctave none, (AH.parsePc p.1).isSome :=
  ⟨AH.voiceChordGo_eq_pairs notes baseOctave none,
   (AH.voiceChordPairs_chain notes baseOctave none).1,
   AH.voiceChordPairs_sublist notes baseOctave none,
   AH.voiceChordPairs_parseable notes baseOctave none⟩

/-- C2 counterexample: with base octave 9 the input `["G", "C"]` — both
perfectly parseable pitch classes — yields only `["G9"]`: `G9` is midi 127,
and bumping `C` above it reaches `C10` = 132 > 127, where tonal's midi lookup
fails, so the `C` is silently dropped.  The claim's "one output note per
parseable input pitch class" is false as stated. -/
theorem claim_C2_counterexample :
    AH.voiceChord ["G", "C"] 9 = ["G9"] ∧
    (AH.parsePc "C").isSome = true ∧ (AH.parsePc "G").isSome = true := by
  decide

/-- C3 (amended): in the current engine `src/helpers/AudioEngine.ts`, a note
token that does not parse (`noteToFreq` null) makes `playNote` a complete
no-op: no sound event, no state change, and no exception (the operation is a
total function).  Amended from the original claim: this holds for the current
engine only — in the part_010/part_012 iterations `noteToFreq` falls back to
440 Hz and an invalid token does sound a voice. -/
theorem claim_C3 (note : String) (h : EN.noteToFreq note = none)
    (d : Rat) (s : EN.State) : EN.playNote note d s = s := by
  simp [EN.playNote, h]

/-- Witness for C3 at the unparseable token `"X4"`. -/
theorem claim_C3_witness :
    EN.noteToFreq "X4" = none ∧ EN.playNote "X4" 1 EN.init = EN.init :=
  ⟨by decide, claim_C3 "X4" (by decide) 1 EN.init⟩

/-- C3 counterexample: in the part_010 engine (whose `noteToFreq` is the same
code as part_012's), the invalid token `"X4"` is *not* rejected — `noteToFreq`
returns the 440 Hz fallback (midi 69 under its own formula) and `playNote`
sounds a held voice for it instead of being a no-op. -/
theorem claim_C3_counterexample :
    (E10.playNote "X4" none E10.init).voices = [⟨0, "X4", 69, none, false⟩] := by
  decide

/-- C6 (amended): in the current engine, `playSequence` with an empty chord
list returns before any effect — the state (timers, flags, events) is exactly
unchanged, so no timer is scheduled and no voice is triggered (this engine's
`playSequence` takes no `onStep` callback at all).  Amended from the original
claim: part_012's `playSequence` has no empty-list guard and is *not* a no-op
there. -/
theorem claim_C6 (startIndex : Nat) (loop : Bool) (s : EN.State) :
    EN.playSequence [] startIndex loop s = s := by
  simp [EN.playSequence]

/-- C6 counterexample: in part_012, `playSequence([], …)` is not a no-op.
From a state holding one manually held voice, the call with `loop = false`
first runs `stopSequence()`, emptying the voice table; and with `loop = true`
the source recurses without bound on the empty list (modelled as `none`). -/
theorem claim_C6_counterexample :
    (E12.playNote "C4" none E12.init).activeVoices = [("C4", 0)] ∧
    (E12.playSequence [] 5 false false (E12.playNote "C4" none E12.init)).map
        (fun s => s.activeVoices) = some [] ∧
    E12.playSequence [] 0 true false (E12.playNote "C4" none E12.init) = none := by
  decide

/-- C7 counterexample: in the current engine (the cited `playChord` at lines
87-95), a chord with *absent* `durationBeats` is not held indefinitely:
`?? 1` substitutes one beat, giving a finite 0.5 s one-shot at the default
120 bpm — the same duration an explicit `durationBeats = 1` gives. -/
theorem claim_C7_counterexample :
    EN.playChord ⟨["A4"], none⟩ EN.init = EN.playChord ⟨["A4"], some 1⟩ EN.init ∧
    (EN.playChord ⟨["A4"], none⟩ EN.init).events.length = 1 :=
  ⟨rfl, by decide⟩

/-- C8 counterexample: in the current engine (the cited `stopSequence` at
lines 139-145), `stopSequence` cancels only the armed timer — it does not
stop sounding voices.  A 4-beat chord (a 2 s one-shot at 120 bpm) keeps
exactly its scheduled 2 s stop across `stopSequence`; no sound event is
touched. -/
theorem claim_C8_counterexample :
    (EN.stopSequence (EN.playChord ⟨["C4"], some 4⟩ EN.init)).events =
      (EN.playChord ⟨["C4"], some 4⟩ EN.init).events ∧
    (EN.playChord ⟨["C4"], some 4⟩ EN.init).events.length = 1 :=
  ⟨rfl, by decide⟩

/-- C1 counterexample: in part_012, `playNote` does not retire the existing
voice: two held `playNote("C4")` calls with no intervening stop leave *two*
simultaneously sounding voices for C4.  The voice table keeps a single entry
(the second voice) but the first voice is orphaned — removed from the table
without ever being stopped. -/
theorem claim_C1_counterexample :
    (E12.soundingFor (E12.playNote "C4" none (E12.playNote "C4" none E12.init)) "C4").length = 2 ∧
    (E12.playNote "C4" none (E12.playNote "C4" none E12.init)).activeVoices = [("C4", 1)] := by
  decide

/-- C9 counterexample: in part_012, calling `stopSequence()` when *no*
sequence is active (no tracked timeouts) still empties the voice table: the
manually held C4 voice is faded out and dropped rather than kept. -/
theorem claim_C9_counterexample :
    (E12.playNote "C4" none E12.init).sequenceTimeouts = [] ∧
    (E12.playNote "C4" none E12.init).activeVoices = [("C4", 0)] ∧
    (E12.stopSequence (E12.playNote "C4" none E12.init)).activeVoices = [] ∧
    (E12.stopSequence (E12.playNote "C4" none E12.init)).voices =
      [⟨0, "C4", false, none, true⟩] := by
  decide

/-- C5 counterexample: on a *first-ever* soundfont load, `useSoundfont` is
still false while the load is in flight, so the not-ready guard does not
trip: `playChord` during the load falls through to the oscillator path and
triggers an oscillator voice — the call is neither silently dropped nor
played on the sampled instrument. -/
theorem claim_C5_counterexample :
    (E12.loadStart "choir_aahs" E12.init).useSoundfont = false ∧
    (E12.loadStart "choir_aahs" E12.init).soundfontReady = false ∧
    (E12.playChord ⟨["C4"], some 1⟩ (E12.loadStart "choir_aahs" E12.init)).voices.map
        (fun v => (v.note, v.sf, v.stopped)) = [("C4", false, false)] := by
  decide

/-- Witness for C2 at the repeated-pitch-class test input `["C", "C", "E"]`,
base octave 3. -/
theorem claim_C2_witness :
    AH.voiceChord ["C", "C", "E"] 3 =
      (AH.voiceChordPairs ["C", "C", "E"] 3 none).map (fun p => p.1 ++ toString p.2.1) ∧
    List.Chain' (fun a b => a < b)
      ((AH.voiceChordPairs ["C", "C", "E"] 3 none).map (fun p => p.2.2)) ∧
    ((AH.voiceChordPairs ["C", "C", "E"] 3 none).map (fun p => p.1)).Sublist
      ["C", "C", "E"] ∧
    ∀ p ∈ AH.voiceChordPairs ["C", "C", "E"] 3 none, (AH.parsePc p.1).isSome :=
  claim_C2 ["C", "C", "E"] 3

/-- C10: in the current engine, every voice triggered by `playChord` carries a
computed sounding duration clamped to at least 0.03 s, and every timer armed
by `playSequence` — or by any later `tick` of the chain — has a delay of at
least 20 ms, so step scheduling has this unstated lower bound regardless of
`durationBeats` or tempo. -/
theorem claim_C10 (s : EN.State) (chord : EN.AudioChord)
    (chords : List EN.AudioChord) (startIndex : Nat) (loop : Bool) :
    (∃ new, (EN.playChord chord s).events = s.events ++ new ∧
      ∀ e ∈ new, 3/100 ≤ e.argDuration) ∧
    (∀ t ∈ (EN.playSequence chords startIndex loop s).pending,
      t ∈ s.pending ∨ 20 ≤ t.delayMs) ∧
    (∀ t ∈ (EN.tick chords s).pending, t ∈ s.pending ∨ 20 ≤ t.delayMs) :=
  ⟨EN.playChord_events chord s,
   EN.playSequence_new_timers chords startIndex loop s,
   EN.tick_new_timers chords s⟩

/-- C4: after `panic()` in the part_012 engine, the voice table and the
soundfont stop-registry are empty (manually held notes included, since
`stopAllNotes` runs unconditionally), and no pending timer carries a
sequence-step callback — `stopSequence` cancelled every tracked timer, and the
timer invariant says every pending sequence-step timer is tracked — so no
previously scheduled sequence step can ever fire afterwards, even if one was
pending at the call. -/
theorem claim_C4 (s : E12.State) (hInv : E12.TimerInv s) :
    (E12.panic s).activeVoices = [] ∧ (E12.panic s).sfActiveNotes = [] ∧
    ∀ t ∈ (E12.panic s).pending, t.payload.isSeqStep = false := by
  refine ⟨rfl, rfl, ?_⟩
  intro t ht
  have hpend : (E12.panic s).pending = (E12.stopSequence s).pending := rfl
  rw [hpend] at ht
  exact E12.stopSequence_no_seqStep s hInv t ht

/-- Witness for C4 at a state with a held voice and a pending sequence-step
timer (one chord just fired, its follow-up timer armed). -/
theorem claim_C4_witness :
    E12.TimerInv ((E12.playSequence [⟨["E4"], 2⟩] 0 false true
        (E12.playNote "C4" none E12.init)).getD E12.init) ∧
    ((E12.panic ((E12.playSequence [⟨["E4"], 2⟩] 0 false true
        (E12.playNote "C4" none E12.init)).getD E12.init)).activeVoices = [] ∧
     (E12.panic ((E12.playSequence [⟨["E4"], 2⟩] 0 false true
        (E12.playNote "C4" none E12.init)).getD E12.init)).sfActiveNotes = [] ∧
     ∀ t ∈ (E12.panic ((E12.playSequence [⟨["E4"], 2⟩] 0 false true
        (E12.playNote "C4" none E12.init)).getD E12.init)).pending,
       t.payload.isSeqStep = false) :=
  ⟨by decide, claim_C4 _ (by decide)⟩

/-- C5 (amended): in part_012, the "silently dropped while loading" behaviour
holds only when a sampled instrument was already in use: if `useSoundfont` is
set and the engine is not ready, `playChord` returns with the state fully
unchanged (zero voices).  After a load resolves (`loadFinish`), an identical
`playChord` triggers exactly one sampled voice per chord note.  Amended from
the original claim: on a *first-ever* load, `useSoundfont` is still false
while the load is in flight and `playChord` falls through to the oscillator
path instead of being dropped (see the counterexample). -/
theorem claim_C5 (s : E12.State) (chord : E12.Chord) :
    (s.useSoundfont = true → s.soundfontReady = false → E12.playChord chord s = s) ∧
    (∀ name, ∃ new,
      (E12.playChord chord (E12.loadFinish name s)).voices =
        (E12.loadFinish name s).voices ++ new ∧
      new.map (fun v => v.note) = chord.notes ∧
      ∀ v ∈ new, v.sf = true) := by
  constructor
  · intro h1 h2
    exact E12.playChord_notReady chord s h1 h2
  · intro name
    have hsf : (E12.loadFinish name s).sfInstrument.isSome = true := rfl
    have hu : (E12.loadFinish name s).useSoundfont = true := rfl
    have hr : (E12.loadFinish name s).soundfontReady = true := rfl
    have hpath : E12.playChord chord (E12.loadFinish name s) =
        chord.notes.foldl
          (E12.playChordSfNote
            (E12.chordDurationSec (E12.loadFinish name s) chord.durationBeats))
          (E12.loadFinish name s) := by
      simp [E12.playChord, hu, hr, hsf]
    rw [hpath]
    exact E12.sfFold _ chord.notes _ hsf

/-- Witness for C5: a ready soundfont engine switching to an uncached
instrument (so `useSoundfont` is true but not ready) drops the chord; after
the load resolves, the same chord yields one sampled voice per note. -/
theorem claim_C5_witness :
    E12.playChord ⟨["C4", "E4"], some 1⟩
        (E12.loadStart "pad_2_warm" (E12.loadFinish "choir_aahs" E12.init)) =
      E12.loadStart "pad_2_warm" (E12.loadFinish "choir_aahs" E12.init) ∧
    (∃ new,
      (E12.playChord ⟨["C4", "E4"], some 1⟩
        (E12.loadFinish "choir_aahs"
          (E12.loadStart "pad_2_warm" (E12.loadFinish "choir_aahs" E12.init)))).voices =
      (E12.loadFinish "choir_aahs"
        (E12.loadStart "pad_2_warm" (E12.loadFinish "choir_aahs" E12.init))).voices ++ new ∧
      new.map (fun v => v.note) = ["C4", "E4"] ∧
      ∀ v ∈ new, v.sf = true) :=
  ⟨(claim_C5 (E12.loadStart "pad_2_warm" (E12.loadFinish "choir_aahs" E12.init))
      ⟨["C4", "E4"], some 1⟩).1 rfl rfl,
   (claim_C5 (E12.loadStart "pad_2_warm" (E12.loadFinish "choir_aahs" E12.init))
      ⟨["C4", "E4"], some 1⟩).2 "choir_aahs"⟩

/-- C7 (amended): in the part_012 engine on the oscillator path, `playChord`
computes `durationSec = durationBeats * 60 / bpm` exactly for every chord with
nonzero `durationBeats` (each triggered voice's stop is scheduled at that
offset), and when `durationBeats` is absent the voices carry no scheduled stop
— held until an explicit stop, matching single-note hold semantics.  Amended
from the original claim: this is the part_012 engine; in the current
`src/helpers/AudioEngine.ts`, an absent `durationBeats` instead defaults to
one beat, clamped below at 0.03 s (see the counterexample), and a zero
`durationBeats` is treated as absent in both. -/
theorem claim_C7 (s : E12.State) (hbpm : s.bpm ≠ 0) (hsf : s.useSoundfont = false)
    (notes : List String) :
    (∀ b : Rat, b ≠ 0 → ∃ new,
      (E12.playChord ⟨notes, some b⟩ s).voices = s.voices ++ new ∧
      new.length = notes.length ∧
      ∀ v ∈ new, v.stopAfter = some (60 / s.bpm * b)) ∧
    (∃ new, (E12.playChord ⟨notes, none⟩ s).voices = s.voices ++ new ∧
      new.length = notes.length ∧
      ∀ v ∈ new, v.stopAfter = none) := by
  constructor
  · intro b hb
    obtain ⟨new, h1, h2, h3⟩ := E12.oscFold (E12.chordDurationSec s (some b)) notes s
    have hd : E12.chordDurationSec s (some b) = some (60 / s.bpm * b) := by
      simp [E12.chordDurationSec, hb, E12.beatsToSeconds]
    have htr : E12.truthy (some ((60 : Rat) / s.bpm * b)) = true := by
      simp only [E12.truthy, decide_eq_true_eq]
      exact mul_ne_zero (div_ne_zero (by norm_num) hbpm) hb
    refine ⟨new, ?_, h2, ?_⟩
    · rw [E12.playChord_oscPath _ _ hsf]
      exact h1
    · intro v hv
      rw [h3 v hv, hd, if_pos htr]
  · obtain ⟨new, h1, h2, h3⟩ := E12.oscFold (E12.chordDurationSec s none) notes s
    refine ⟨new, ?_, h2, ?_⟩
    · rw [E12.playChord_oscPath _ _ hsf]
      exact h1
    · intro v hv
      rw [h3 v hv]
      rfl

/-- Witness for C7 at the initial part_012 state (120 bpm, oscillator path)
with a one-note chord of 2 beats, and with absent beats. -/
theorem claim_C7_witness :
    (∃ new, (E12.playChord ⟨["C4"], some 2⟩ E12.init).voices = E12.init.voices ++ new ∧
      new.length = ["C4"].length ∧
      ∀ v ∈ new, v.stopAfter = some (60 / E12.init.bpm * 2)) ∧
    (∃ new, (E12.playChord ⟨["C4"], none⟩ E12.init).voices = E12.init.voices ++ new ∧
      new.length = ["C4"].length ∧
      ∀ v ∈ new, v.stopAfter = none) :=
  ⟨(claim_C7 E12.init (by simp [E12.init]) rfl ["C4"]).1 2 (by simp),
   (claim_C7 E12.init (by simp [E12.init]) rfl ["C4"]).2⟩

/-- C8 (amended): in the part_012 engine, `stopSequence()` cancels every
pending sequence-step timer (under the timer invariant) and stops all
*tracked* sounding voices: the voice table and soundfont registry are emptied
and every tabled voice gets its stop scheduled.  Amended from the original
claim: in the current `src/helpers/AudioEngine.ts`, `stopSequence` cancels
only the armed timer and stops no sounding voice (see the counterexample);
and voices orphaned by part_012's retrigger (C1) are unreachable and are not
stopped. -/
theorem claim_C8 (s : E12.State) (hInv : E12.TimerInv s) :
    (E12.stopSequence s).activeVoices = [] ∧
    (E12.stopSequence s).sfActiveNotes = [] ∧
    (∀ t ∈ (E12.stopSequence s).pending, t.payload.isSeqStep = false) ∧
    ∀ p ∈ s.activeVoices, ∀ v ∈ (E12.stopSequence s).voices,
      v.vid = p.2 → v.stopped = true :=
  ⟨rfl, rfl, E12.stopSequence_no_seqStep s hInv, E12.stopSequence_stops_tabled s⟩

/-- Witness for C8 at a looping one-chord sequence just started on top of a
held voice. -/
theorem claim_C8_witness :
    E12.TimerInv ((E12.playSequence [⟨["A4"], 1⟩] 0 true false
        (E12.playNote "D4" none E12.init)).getD E12.init) ∧
    ((E12.stopSequence ((E12.playSequence [⟨["A4"], 1⟩] 0 true false
        (E12.playNote "D4" none E12.init)).getD E12.init)).activeVoices = [] ∧
     (E12.stopSequence ((E12.playSequence [⟨["A4"], 1⟩] 0 true false
        (E12.playNote "D4" none E12.init)).getD E12.init)).sfActiveNotes = [] ∧
     (∀ t ∈ (E12.stopSequence ((E12.playSequence [⟨["A4"], 1⟩] 0 true false
        (E12.playNote "D4" none E12.init)).getD E12.init)).pending,
        t.payload.isSeqStep = false) ∧
     ∀ p ∈ ((E12.playSequence [⟨["A4"], 1⟩] 0 true false
        (E12.playNote "D4" none E12.init)).getD E12.init).activeVoices,
       ∀ v ∈ (E12.stopSequence ((E12.playSequence [⟨["A4"], 1⟩] 0 true false
        (E12.playNote "D4" none E12.init)).getD E12.init)).voices,
         v.vid = p.2 → v.stopped = true) :=
  ⟨by decide, claim_C8 _ (by decide)⟩

/-- C9 (amended): in the part_012 engine, `stopSequence()` with no sequence
active never throws (it is a total function) and cancels nothing (the pending
timers are untouched since no timeout is tracked) — but it does *not* leave
the voice table unaffected: `stopAllNotes` runs unconditionally, so the table
and soundfont registry are emptied and every tabled voice — manually held
notes included — is stopped.  Amended from the original claim, which said
manually held notes keep their voices (see the counterexample). -/
theorem claim_C9 (s : E12.State) (h : s.sequenceTimeouts = []) :
    (E12.stopSequence s).pending = s.pending ∧
    (E12.stopSequence s).activeVoices = [] ∧
    (E12.stopSequence s).sfActiveNotes = [] ∧
    ∀ p ∈ s.activeVoices, ∀ v ∈ (E12.stopSequence s).voices,
      v.vid = p.2 → v.stopped = true := by
  refine ⟨?_, rfl, rfl, E12.stopSequence_stops_tabled s⟩
  rw [E12.stopSequence_pending, h]
  simp

/-- Witness for C9 at a state holding one manual voice and no sequence. -/
theorem claim_C9_witness :
    (E12.stopSequence (E12.playNote "C4" none E12.init)).pending =
      (E12.playNote "C4" none E12.init).pending ∧
    (E12.stopSequence (E12.playNote "C4" none E12.init)).activeVoices = [] ∧
    (E12.stopSequence (E12.playNote "C4" none E12.init)).sfActiveNotes = [] ∧
    ∀ p ∈ (E12.playNote "C4" none E12.init).activeVoices,
      ∀ v ∈ (E12.stopSequence (E12.playNote "C4" none E12.init)).voices,
        v.vid = p.2 → v.stopped = true :=
  claim_C9 (E12.playNote "C4" none E12.init) rfl

/-- Witness for C10 at a zero-beat chord (forcing both clamps) and a
one-chord sequence, from the initial state. -/
theorem claim_C10_witness :
    (∃ new, (EN.playChord ⟨["C4"], some 0⟩ EN.init).events = EN.init.events ++ new ∧
      ∀ e ∈ new, 3/100 ≤ e.argDuration) ∧
    (∀ t ∈ (EN.playSequence [⟨["C4"], some 0⟩] 0 false EN.init).pending,
      t ∈ EN.init.pending ∨ 20 ≤ t.delayMs) ∧
    (∀ t ∈ (EN.tick [⟨["C4"], some 0⟩] EN.init).pending,
      t ∈ EN.init.pending ∨ 20 ≤ t.delayMs) :=
  claim_C10 EN.init ⟨["C4"], some 0⟩ [⟨["C4"], some 0⟩] 0 false

end Kords
